import Mathlib

/-!
Verification of the incremental JSON extraction state machine and the
streaming consumer of `llm-plugin-utils` (src/api/parsing.rs, src/api/chat.rs),
together with the top-k embedding search (src/api/embeddings.rs).

The Rust code is shallowly embedded: strings are `List Char` (Rust iterates
`input.chars()`), the `usize` depth counter is `Nat`, and the imperative
loop of `parse_json_from_stream` becomes a structural recursion threading the
loop's three mutable variables (`json_state`, `completed_json`,
`filtered_delta`) as accumulators.
-/

namespace LlmPluginUtils

/-- The extractor state, embedding `JsonState` from src/api/parsing.rs. -/
inductive JsonState where
  | Idle : JsonState
  | Active (data : List Char) (num_brackets : Nat) (in_string : Bool) (escaped : Bool) : JsonState
  | MaybeIgnore (tick_count : Nat) : JsonState
  | Ignore (num_ticks : Nat) (tick_count : Nat) : JsonState
deriving DecidableEq

/-- One iteration of the `for ch in input.chars()` loop body of
`parse_json_from_stream`: given the current state and the character, return
the next state, the JSON completed at this step (if any), and the characters
appended to `filtered_delta` at this step.  The `if`-chain mirrors the Rust
`match` arms and their guards in order. -/
def parse_step (json_state : JsonState) (ch : Char) : JsonState × Option (List Char) × List Char :=
  match json_state with
  | .Idle =>
      if ch = '{' then
        (.Active ['{'] 1 false false, none, [])
      else if ch = '`' then
        (.MaybeIgnore 1, none, [ch])
      else
        (.Idle, none, [ch])
  | .Active data num_brackets in_string escaped =>
      if ch = '{' ∧ in_string = false then
        (.Active (data ++ [ch]) (num_brackets + 1) in_string escaped, none, [])
      else if ch = '}' ∧ in_string = false then
        let num_brackets := num_brackets - 1
        if num_brackets = 0 then
          (.Idle, some (data ++ [ch]), [])
        else
          (.Active (data ++ [ch]) num_brackets in_string escaped, none, [])
      else if ch = '"' ∧ in_string = true ∧ escaped = false then
        (.Active (data ++ [ch]) num_brackets false escaped, none, [])
      else if ch = '"' ∧ in_string = false ∧ escaped = false then
        (.Active (data ++ [ch]) num_brackets true escaped, none, [])
      else if ch = '\\' ∧ escaped = false then
        (.Active data num_brackets in_string true, none, [])
      else
        (.Active (data ++ [ch]) num_brackets in_string false, none, [])
  | .MaybeIgnore tick_count =>
      if ch = '`' then
        (.MaybeIgnore (tick_count + 1), none, [ch])
      else
        (.Ignore tick_count 0, none, [ch])
  | .Ignore num_ticks tick_count =>
      if ch = '`' then
        let tick_count := tick_count + 1
        if tick_count = num_ticks then
          (.Idle, none, [ch])
        else
          (.Ignore num_ticks tick_count, none, [ch])
      else
        (.Ignore num_ticks 0, none, [ch])

/-- `completed_json` is overwritten each time a capture completes: the value
produced later in the loop wins. -/
def combineJson (old new : Option (List Char)) : Option (List Char) :=
  match new with
  | some j => some j
  | none => old

/-- The loop of `parse_json_from_stream`, threading the mutable variables
`json_state`, `completed_json` and `filtered_delta` as accumulators. -/
def parseLoop : List Char → JsonState → Option (List Char) → List Char →
    JsonState × Option (List Char) × List Char
  | [], st, cj, fd => (st, cj, fd)
  | ch :: rest, st, cj, fd =>
      let r := parse_step st ch
      parseLoop rest r.1 (combineJson cj r.2.1) (fd ++ r.2.2)

/-- `parse_json_from_stream` from src/api/parsing.rs: starts with
`completed_json = None` and `filtered_delta` empty and runs the loop over the
fragment's characters. -/
def parse_json_from_stream (input : List Char) (json_state : JsonState) :
    JsonState × Option (List Char) × List Char :=
  parseLoop input json_state none []

/-- Feeding a list of fragments to `parse_json_from_stream` one after another,
threading the returned state across calls, concatenating the passthrough
outputs, and letting a later call's completed JSON overwrite an earlier one
(just as later completions overwrite earlier ones inside a single call). -/
def feedAll : List (List Char) → JsonState →
    JsonState × Option (List Char) × List Char
  | [], st => (st, none, [])
  | c :: cs, st =>
      let r := parse_json_from_stream c st
      let q := feedAll cs r.1
      (q.1, combineJson r.2.1 q.2.1, r.2.2 ++ q.2.2)

/-! ## The stream consumer (src/api/chat.rs, `ChatRequest::stream_json`) -/

/-- Events delivered by the event source: `Ok(Event::Open)`,
`Ok(Event::Message(m))` carrying the payload text, or `Err(e)`. -/
inductive SseEvent where
  | opened : SseEvent
  | message (data : List Char) : SseEvent
  | failed : SseEvent
deriving DecidableEq

/-- A delta record deserialized from a non-sentinel message payload
(`ChatDelta` in src/api/chat.rs). -/
inductive ChatDelta where
  | role (s : List Char) : ChatDelta
  | content (s : List Char) : ChatDelta
deriving DecidableEq

/-- The distinguishable failures `stream_json` can return: the synchronous
configuration error for `stream = false`, a transport (event-source) error,
and a payload-deserialization error. -/
inductive StreamErr where
  | config : StreamErr
  | transport : StreamErr
  | decode : StreamErr
deriving DecidableEq

/-- `JsonResponse` from src/api/chat.rs: the accumulated passthrough text and
the captured JSON, if any. -/
structure JsonResponse where
  antecedent : List Char
  json : Option (List Char)
deriving DecidableEq

/-- The `while let Some(event) = es.next().await` loop of `stream_json`.
`decode` abstracts `serde_json::from_str::<ChatStream>` followed by
`.delta()` (an external serde concern): it either fails or yields an optional
delta.  The accumulators are the extractor state, `string_response`, and
`json_response`. -/
def runLoop (decode : List Char → Except Unit (Option ChatDelta)) :
    List SseEvent → JsonState → List Char → Option (List Char) →
    Except StreamErr JsonResponse
  | [], _, acc, jr => .ok ⟨acc, jr⟩
  | .opened :: rest, st, acc, jr => runLoop decode rest st acc jr
  | .failed :: _, _, _, _ => .error .transport
  | .message d :: rest, st, acc, jr =>
      if d = "[DONE]".toList then
        .ok ⟨acc, jr⟩
      else
        match decode d with
        | .error _ => .error .decode
        | .ok (some (.content s)) =>
            let r := parse_json_from_stream s st
            let acc := acc ++ r.2.2
            match r.2.1 with
            | some j => .ok ⟨acc, some j⟩
            | none => runLoop decode rest r.1 acc jr
        | .ok _ => runLoop decode rest st acc jr

/-- `ChatRequest::stream_json`: rejects the call when the request's `stream`
flag is false, otherwise runs the consumer loop from `JsonState::Idle` with
empty accumulators over the events the source delivers. -/
def stream_json (stream : Bool) (decode : List Char → Except Unit (Option ChatDelta))
    (events : List SseEvent) : Except StreamErr JsonResponse :=
  if stream = false then
    .error .config
  else
    runLoop decode events .Idle [] none

/-- A concrete decoder for witnesses: every payload deserializes to a content
delta equal to the payload itself. -/
def decodeId : List Char → Except Unit (Option ChatDelta) :=
  fun d => .ok (some (.content d))

/-! ## Top-k embedding search (src/api/embeddings.rs, `knn_search`)

Scores are modelled as exact integers (the claims under study concern the
control flow of the bounded heap, not floating-point rounding).  The binary
min-heap of `Reverse<EmbeddingDistance>` values is modelled as a list whose
`peek`/`pop` return an element of minimal distance.  A `None` result of
`knn_search` models a panic (`.unwrap()` of an empty `peek`). -/

/-- `dot_product` from src/api/embeddings.rs. -/
def dot_product (a b : List Int) : Int :=
  ((a.zip b).map fun p => p.1 * p.2).sum

/-- Remove an element of minimal distance from the heap, returning it and the
remaining elements; `none` on the empty heap (where `peek()` returns `None`
and `.unwrap()` panics). -/
def popMin : List (List Int × Int) → Option ((List Int × Int) × List (List Int × Int))
  | [] => none
  | x :: xs =>
      match popMin xs with
      | none => some (x, [])
      | some (m, rest) => if x.2 ≤ m.2 then some (x, xs) else some (m, x :: rest)

/-- The `for item in content` loop of `knn_search`: push while the heap holds
fewer than `k` items, otherwise replace the minimum when the new distance
beats it.  Returns `none` when the code would panic. -/
def knnLoop (query : List Int) (k : Nat) :
    List (List Int) → List (List Int × Int) → Option (List (List Int × Int))
  | [], heap => some heap
  | item :: rest, heap =>
      let distance := dot_product query item
      if heap.length < k then
        knnLoop query k rest ((item, distance) :: heap)
      else
        match popMin heap with
        | none => none
        | some (m, rest') =>
            if m.2 < distance then
              knnLoop query k rest ((item, distance) :: rest')
            else
              knnLoop query k rest heap

/-- Insert into a list sorted by descending distance. -/
def insertDesc (x : List Int × Int) : List (List Int × Int) → List (List Int × Int)
  | [] => [x]
  | y :: ys => if y.2 ≤ x.2 then x :: y :: ys else y :: insertDesc x ys

/-- `into_sorted_vec` on the `Reverse`-ordered heap: ascending in the
reversed order, i.e. descending distance. -/
def sortDesc (l : List (List Int × Int)) : List (List Int × Int) :=
  l.foldr insertDesc []

/-- `knn_search` from src/api/embeddings.rs: run the bounded-heap loop, then
return the kept `(item, distance)` pairs sorted by descending distance;
`none` models the panic. -/
def knn_search (query : List Int) (content : List (List Int)) (k : Nat) :
    Option (List (List Int × Int)) :=
  (knnLoop query k content []).map sortDesc

/-! ## Auxiliary predicates on extractor states -/

/-- `true` unless the state is `Active`. -/
def notActive : JsonState → Bool
  | .Active _ _ _ _ => false
  | _ => true

/-- The depth invariant: in `Active` the bracket counter is at least 1 (so
the `num_brackets - 1` performed on `'}'` never underflows); vacuous in the
other states. -/
def activeDepthOk : JsonState → Bool
  | .Active _ n _ _ => decide (1 ≤ n)
  | _ => true

/-! ## Basic lemmas about the extractor loop -/

theorem combineJson_none_left (x : Option (List Char)) : combineJson none x = x := by
  cases x <;> rfl

theorem combineJson_assoc (a b c : Option (List Char)) :
    combineJson (combineJson a b) c = combineJson a (combineJson b c) := by
  cases c <;> rfl

/-- Running the loop with accumulators `cj`, `fd` is running it with empty
accumulators and combining afterwards. -/
theorem parseLoop_acc (input : List Char) : ∀ (st : JsonState) (cj : Option (List Char))
    (fd : List Char),
    parseLoop input st cj fd =
      ((parse_json_from_stream input st).1,
        combineJson cj (parse_json_from_stream input st).2.1,
        fd ++ (parse_json_from_stream input st).2.2) := by
  induction input with
  | nil =>
      intro st cj fd
      simp [parseLoop, parse_json_from_stream, combineJson]
  | cons ch rest ih =>
      intro st cj fd
      simp only [parse_json_from_stream, parseLoop] at *
      rw [ih, ih (parse_step st ch).1 (combineJson none (parse_step st ch).2.1)]
      simp [combineJson_none_left, combineJson_assoc]

/-- Unfolding one character of `parse_json_from_stream`. -/
theorem parse_cons (ch : Char) (rest : List Char) (st : JsonState) :
    parse_json_from_stream (ch :: rest) st =
      ((parse_json_from_stream rest (parse_step st ch).1).1,
        combineJson (parse_step st ch).2.1
          (parse_json_from_stream rest (parse_step st ch).1).2.1,
        (parse_step st ch).2.2 ++
          (parse_json_from_stream rest (parse_step st ch).1).2.2) := by
  show parseLoop (ch :: rest) st none [] = _
  simp only [parseLoop]
  rw [parseLoop_acc]
  simp [combineJson_none_left]

/-- Splitting the input of `parse_json_from_stream` at any point and threading
the state, combining the components as the loop does. -/
theorem parse_append (xs ys : List Char) (st : JsonState) :
    parse_json_from_stream (xs ++ ys) st =
      ((parse_json_from_stream ys (parse_json_from_stream xs st).1).1,
        combineJson (parse_json_from_stream xs st).2.1
          (parse_json_from_stream ys (parse_json_from_stream xs st).1).2.1,
        (parse_json_from_stream xs st).2.2 ++
          (parse_json_from_stream ys (parse_json_from_stream xs st).1).2.2) := by
  induction xs generalizing st with
  | nil =>
      simp only [List.nil_append]
      show _ = ((parse_json_from_stream ys (parseLoop [] st none []).1).1, _, _)
      simp only [parseLoop, combineJson_none_left, parse_json_from_stream, List.nil_append]
  | cons ch rest ih =>
      rw [List.cons_append, parse_cons, parse_cons, ih]
      simp [combineJson_assoc]

/-- Feeding fragments one after another is the same as feeding their
concatenation in one call. -/
theorem feedAll_join (chunks : List (List Char)) (st : JsonState) :
    feedAll chunks st = parse_json_from_stream chunks.flatten st := by
  induction chunks generalizing st with
  | nil => rfl
  | cons c cs ih =>
      simp only [feedAll, List.flatten_cons]
      rw [ih, parse_append]

/-- A single step from a non-`Active` state on a non-`{` character: the
character passes through unchanged, no JSON completes, and the machine stays
outside `Active`. -/
theorem parse_step_no_brace (st : JsonState) (ch : Char) (h1 : notActive st = true)
    (h2 : ch ≠ '{') :
    (parse_step st ch).2.1 = none ∧ (parse_step st ch).2.2 = [ch] ∧
      notActive (parse_step st ch).1 = true := by
  cases st with
  | Idle =>
      by_cases hb : ch = '`' <;> simp [parse_step, h2, hb, notActive]
  | Active data n instr esc => simp [notActive] at h1
  | MaybeIgnore tc =>
      by_cases hb : ch = '`' <;> simp [parse_step, hb, notActive]
  | Ignore nt tc =>
      by_cases hb : ch = '`'
      · by_cases hn : tc + 1 = nt <;> simp [parse_step, hb, hn, notActive]
      · simp [parse_step, hb, notActive]

/-- A whole run from a non-`Active` state over brace-free input: no JSON
completes and the input is passed through verbatim. -/
theorem parse_no_brace (input : List Char) : ∀ st : JsonState, notActive st = true →
    (∀ c ∈ input, c ≠ '{') →
    (parse_json_from_stream input st).2.1 = none ∧
      (parse_json_from_stream input st).2.2 = input ∧
      notActive (parse_json_from_stream input st).1 = true := by
  induction input with
  | nil =>
      intro st h1 _
      simpa [parse_json_from_stream, parseLoop] using h1
  | cons ch rest ih =>
      intro st h1 h2
      obtain ⟨s1, s2, s3⟩ := parse_step_no_brace st ch h1 (h2 ch (by simp))
      obtain ⟨r1, r2, r3⟩ := ih (parse_step st ch).1 s3 (fun c hc => h2 c (by simp [hc]))
      rw [parse_cons]
      simp [s1, s2, r1, r2, r3, combineJson]

/-- One step preserves the `Active` depth invariant, and every state and
character have a well-defined successor. -/
theorem parse_step_depth (st : JsonState) (ch : Char) (h : activeDepthOk st = true) :
    activeDepthOk (parse_step st ch).1 = true := by
  cases st with
  | Idle =>
      by_cases h1 : ch = '{' <;> by_cases h2 : ch = '`' <;>
        simp [parse_step, h1, h2, activeDepthOk]
  | Active data n instr esc =>
      simp only [activeDepthOk, decide_eq_true_eq] at h
      simp only [parse_step]
      repeat' split
      all_goals simp_all [activeDepthOk]
      all_goals omega
  | MaybeIgnore tc =>
      by_cases hb : ch = '`' <;> simp [parse_step, hb, activeDepthOk]
  | Ignore nt tc =>
      by_cases hb : ch = '`'
      · by_cases hn : tc + 1 = nt <;> simp [parse_step, hb, hn, activeDepthOk]
      · simp [parse_step, hb, activeDepthOk]

/-- A whole run preserves the `Active` depth invariant. -/
theorem parse_depth (input : List Char) : ∀ st : JsonState, activeDepthOk st = true →
    activeDepthOk (parse_json_from_stream input st).1 = true := by
  induction input with
  | nil =>
      intro st h
      simpa [parse_json_from_stream, parseLoop] using h
  | cons ch rest ih =>
      intro st h
      rw [parse_cons]
      exact ih _ (parse_step_depth st ch h)

/-- The consumer loop can fail with a transport or decode error, but never
with the configuration error: that one is produced only by the synchronous
check in `stream_json` itself. -/
theorem runLoop_ne_config (decode : List Char → Except Unit (Option ChatDelta))
    (events : List SseEvent) : ∀ (st : JsonState) (acc : List Char)
    (jr : Option (List Char)), runLoop decode events st acc jr ≠ .error .config := by
  induction events with
  | nil => intro st acc jr; simp [runLoop]
  | cons e rest ih =>
      intro st acc jr
      cases e with
      | opened => simpa [runLoop] using ih st acc jr
      | failed => simp [runLoop]
      | message d =>
          simp only [runLoop]
          split
          · simp
          · cases hd : decode d with
            | error u => simp
            | ok delta =>
                cases delta with
                | none => exact ih st acc jr
                | some dl =>
                    cases dl with
                    | role s => exact ih st acc jr
                    | content s =>
                        simp only []
                        split
                        · simp
                        · exact ih _ _ jr

/-- Popping the minimum of a nonempty heap succeeds and removes exactly one
element. -/
theorem popMin_cons (y : List Int × Int) (ys : List (List Int × Int)) :
    ∃ m t, popMin (y :: ys) = some (m, t) ∧ t.length = ys.length := by
  induction ys generalizing y with
  | nil => exact ⟨y, [], rfl, rfl⟩
  | cons z zs ih =>
      obtain ⟨m, t, hm, ht⟩ := ih z
      have hstep : popMin (y :: z :: zs) =
          match popMin (z :: zs) with
          | none => some (y, [])
          | some (m, rest) => if y.2 ≤ m.2 then some (y, z :: zs) else some (m, y :: rest) :=
        rfl
      by_cases hle : y.2 ≤ m.2
      · exact ⟨y, z :: zs, by rw [hstep, hm]; simp [hle], rfl⟩
      · refine ⟨m, y :: t, by rw [hstep, hm]; simp [hle], by simp [ht]⟩

/-- The bounded-heap loop never panics when `1 ≤ k`, and keeps at most `k`
elements. -/
theorem knnLoop_ok (query : List Int) (k : Nat) (hk : 1 ≤ k) :
    ∀ (content : List (List Int)) (heap : List (List Int × Int)),
    heap.length ≤ k →
    ∃ r, knnLoop query k content heap = some r ∧ r.length ≤ k := by
  intro content
  induction content with
  | nil => intro heap hh; exact ⟨heap, rfl, hh⟩
  | cons item rest ih =>
      intro heap hh
      by_cases hlt : heap.length < k
      · obtain ⟨r, hr, hrlen⟩ := ih ((item, dot_product query item) :: heap) (by simpa using hlt)
        exact ⟨r, by simpa [knnLoop, hlt] using hr, hrlen⟩
      · have hne : heap ≠ [] := by
          intro he
          rw [he] at hlt
          simp at hlt
          omega
        obtain ⟨y, ys, hy⟩ := List.exists_cons_of_ne_nil hne
        subst hy
        simp only [List.length_cons] at hlt hh
        obtain ⟨m, t, hm, ht⟩ := popMin_cons y ys
        by_cases hcmp : m.2 < dot_product query item
        · obtain ⟨r, hr, hrlen⟩ := ih ((item, dot_product query item) :: t)
            (by simp at hh ⊢; omega)
          exact ⟨r, by simpa [knnLoop, hlt, hm, hcmp] using hr, hrlen⟩
        · obtain ⟨r, hr, hrlen⟩ := ih (y :: ys) hh
          exact ⟨r, by simpa [knnLoop, hlt, hm, hcmp] using hr, hrlen⟩

theorem insertDesc_length (x : List Int × Int) (l : List (List Int × Int)) :
    (insertDesc x l).length = l.length + 1 := by
  induction l with
  | nil => rfl
  | cons y ys ih => by_cases hle : y.2 ≤ x.2 <;> simp [insertDesc, hle, ih]

theorem sortDesc_length (l : List (List Int × Int)) : (sortDesc l).length = l.length := by
  induction l with
  | nil => rfl
  | cons y ys ih => simp [sortDesc, List.foldr] at ih ⊢; rw [insertDesc_length, ih]

/-! ## The claims -/

/-- Claim C1 is false as stated: after a completed object the extractor
returns to `Idle` and a later `{` in the same fragment starts a new capture
which overwrites the earlier completed JSON.  On the fragment
`{"a":1}{"b":2}` the completed JSON is `{"b":2}` although the first balanced
object of the stream is `{"a":1}` (shown balanced by the second conjunct);
the third conjunct shows the machine is back in `Active` after the second
`{`, i.e. capture is re-attempted; the fourth shows the session's final
`StreamResult.json` is the second object. -/
theorem c1_counterexample :
    (parse_json_from_stream ("\x7b\"a\":1\x7d\x7b\"b\":2\x7d".toList) .Idle).2.1 =
      some ("\x7b\"b\":2\x7d".toList)
    ∧ (parse_json_from_stream ("\x7b\"a\":1\x7d".toList) .Idle).2.1 =
      some ("\x7b\"a\":1\x7d".toList)
    ∧ (parse_json_from_stream ("\x7b\"a\":1\x7d\x7b".toList) .Idle).1 =
      .Active ("\x7b".toList) 1 false false
    ∧ runLoop decodeId [.message ("\x7b\"a\":1\x7d\x7b\"b\":2\x7d".toList)] .Idle [] none =
      .ok ⟨[], some ("\x7b\"b\":2\x7d".toList)⟩ :=
  ⟨by decide, by decide, by decide, rfl⟩

/-- Claim C1 (amended): once a call to the extractor returns a completed
JSON, the consumer records it and reads no further events — the result does
not depend on the remaining events — so at most one completed JSON is ever
recorded per session; but that JSON is the one returned by the completing
call, i.e. the last object completed within that fragment, not necessarily
the first balanced object of the stream. -/
theorem c1_amended_stop_on_completion :
    ∀ (decode : List Char → Except Unit (Option ChatDelta)) (d s p j : List Char)
    (st st' : JsonState) (acc : List Char) (jr : Option (List Char)) (rest : List SseEvent),
    d ≠ "[DONE]".toList →
    decode d = .ok (some (.content s)) →
    parse_json_from_stream s st = (st', some j, p) →
    runLoop decode (.message d :: rest) st acc jr = .ok ⟨acc ++ p, some j⟩ := by
  intro decode d s p j st st' acc jr rest h1 h2 h3
  simp only [runLoop]
  rw [if_neg h1, h2]
  simp [h3]

/-- Witness for the amended C1: a session whose first message completes
`{"a":1}` returns it at once; the poisoned `failed` event placed after the
message is never read. -/
theorem c1_amended_witness :
    ("\x7b\"a\":1\x7d".toList ≠ "[DONE]".toList)
    ∧ runLoop decodeId [.message ("\x7b\"a\":1\x7d".toList), .failed] .Idle [] none =
      .ok ⟨[] ++ [], some ("\x7b\"a\":1\x7d".toList)⟩ :=
  ⟨by decide,
    c1_amended_stop_on_completion decodeId _ _ _ _ .Idle .Idle [] none [.failed]
      (by decide) rfl (by decide)⟩

/-- Claim C2 (chunk-invariance): feeding a character sequence to
`parse_json_from_stream` split into fragments, threading the returned state
across calls, concatenating the passthrough and letting a later completed
JSON overwrite an earlier one exactly as the loop itself does, yields the
same final state, completed JSON and antecedent for every splitting with the
same concatenation — in particular the same as the single-fragment call. -/
theorem c2_chunk_invariance :
    ∀ (chunksA chunksB : List (List Char)) (st : JsonState),
    chunksA.flatten = chunksB.flatten → feedAll chunksA st = feedAll chunksB st := by
  intro chunksA chunksB st h
  rw [feedAll_join, feedAll_join, h]

/-- Witness for C2: splitting `ab {"x":1} cd` after the opening of the JSON
object gives the same result as feeding it whole. -/
theorem c2_witness :
    (["ab \x7b\"x\"".toList, ":1\x7d cd".toList] : List (List Char)).flatten =
      (["ab \x7b\"x\":1\x7d cd".toList] : List (List Char)).flatten
    ∧ feedAll ["ab \x7b\"x\"".toList, ":1\x7d cd".toList] .Idle =
      feedAll ["ab \x7b\"x\":1\x7d cd".toList] .Idle :=
  ⟨by decide, c2_chunk_invariance _ _ .Idle (by decide)⟩

/-- Claim C3 concerns a code bug: the deferred backslash is never appended.
On the fragment `{"a":"\n"}` (a two-character escape `\n` inside a captured
string) the captured buffer is `{"a":"n"}`: the escaped character is kept but
the backslash — which the source comment says "will be pushed in next
iteration" — is dropped, so escape sequences are not preserved verbatim. -/
theorem c3_backslash_dropped :
    parse_json_from_stream ("\x7b\"a\":\"\\n\"\x7d".toList) .Idle =
      (.Idle, some ("\x7b\"a\":\"n\"\x7d".toList), [])
    ∧ '\\' ∈ "\x7b\"a\":\"\\n\"\x7d".toList
    ∧ '\\' ∉ "\x7b\"a\":\"n\"\x7d".toList := by
  decide

/-- Claim C4: `activeDepthOk` — depth at least 1 in every `Active` state —
is preserved by every step and every run, so the `num_brackets - 1` on `}`
never underflows; moreover every state and character have a well-defined
successor (the machine is a total function and never signals an error). -/
theorem c4_depth_invariant :
    ∀ (st : JsonState) (ch : Char) (input : List Char), activeDepthOk st = true →
    (∃ st2 j p, parse_step st ch = (st2, j, p) ∧ activeDepthOk st2 = true)
    ∧ activeDepthOk (parse_json_from_stream input st).1 = true := by
  intro st ch input h
  refine ⟨⟨(parse_step st ch).1, (parse_step st ch).2.1, (parse_step st ch).2.2, rfl, ?_⟩, ?_⟩
  · exact parse_step_depth st ch h
  · exact parse_depth input st h

/-- Witness for C4 at the initial state and a stray closing brace, with an
input that opens and closes a nested object. -/
theorem c4_witness :
    activeDepthOk .Idle = true
    ∧ ((∃ st2 j p, parse_step .Idle '}' = (st2, j, p) ∧ activeDepthOk st2 = true)
      ∧ activeDepthOk (parse_json_from_stream ("\x7b\x7b\x7d".toList) .Idle).1 = true) :=
  ⟨by decide, c4_depth_invariant .Idle '}' ("\x7b\x7b\x7d".toList) (by decide)⟩

/-- Claim C5: braces strictly inside a properly fenced run never trigger a
capture — on `` before ```{"x":1}``` after `` fed from `Idle` no JSON is
produced, the machine ends in `Idle`, and the passthrough is the entire
input verbatim. -/
theorem c5_fenced_content :
    parse_json_from_stream ("before ```\x7b\"x\":1\x7d``` after".toList) .Idle =
      (.Idle, none, "before ```\x7b\"x\":1\x7d``` after".toList) := by
  decide

/-- Claim C6: braces inside a JSON string literal do not change depth — the
fragment `foo {"a":"}{"}` captures exactly `{"a":"}{"}` with passthrough
`"foo "`; with the trailing `" bar"` appended the capture is unchanged and
the tail passes through in `Idle`; the nested object `{"a":{"b":1}}` is
captured whole, and no proper prefix of it completes a JSON (depth returns
to 0 only at the final `}`). -/
theorem c6_string_braces :
    parse_json_from_stream ("foo \x7b\"a\":\"\x7d\x7b\"\x7d".toList) .Idle =
      (.Idle, some ("\x7b\"a\":\"\x7d\x7b\"\x7d".toList), "foo ".toList)
    ∧ parse_json_from_stream ("foo \x7b\"a\":\"\x7d\x7b\"\x7d bar".toList) .Idle =
      (.Idle, some ("\x7b\"a\":\"\x7d\x7b\"\x7d".toList), "foo  bar".toList)
    ∧ parse_json_from_stream ("\x7b\"a\":\x7b\"b\":1\x7d\x7d".toList) .Idle =
      (.Idle, some ("\x7b\"a\":\x7b\"b\":1\x7d\x7d".toList), [])
    ∧ ((List.range 13).all fun k =>
        ((parse_json_from_stream (("\x7b\"a\":\x7b\"b\":1\x7d\x7d".toList).take k) .Idle).2.1).isNone)
      = true := by
  decide

/-- Claim C7: on input containing no `{`, fed from `Idle` in any chunking,
no JSON is produced and the concatenated passthrough equals the input
exactly. -/
theorem c7_no_brace_passthrough :
    ∀ chunks : List (List Char),
    (chunks.flatten.all fun c => c != '{') = true →
    (feedAll chunks .Idle).2.1 = none ∧ (feedAll chunks .Idle).2.2 = chunks.flatten := by
  intro chunks h
  rw [feedAll_join]
  have h' : ∀ c ∈ chunks.flatten, c ≠ '{' := by
    intro c hc
    simpa using List.all_eq_true.mp h c hc
  obtain ⟨a, b, _⟩ := parse_no_brace chunks.flatten .Idle rfl h'
  exact ⟨a, b⟩

/-- Witness for C7 on brace-free prose split in two fragments. -/
theorem c7_witness :
    ((["hello ".toList, "world".toList] : List (List Char)).flatten.all fun c => c != '{') = true
    ∧ (feedAll ["hello ".toList, "world".toList] .Idle).2.1 = none
    ∧ (feedAll ["hello ".toList, "world".toList] .Idle).2.2 =
      (["hello ".toList, "world".toList] : List (List Char)).flatten :=
  ⟨by decide, c7_no_brace_passthrough ["hello ".toList, "world".toList] (by decide)⟩

/-- Claim C8: a `Message` whose payload is exactly `[DONE]` ends the loop at
once with the accumulated result — the returned value does not depend on the
remaining events (none is ever read) and `json` is whatever was recorded so
far, regardless of the extractor state. -/
theorem c8_sentinel_stops_loop :
    ∀ (decode : List Char → Except Unit (Option ChatDelta)) (rest : List SseEvent)
    (st : JsonState) (acc : List Char) (jr : Option (List Char)),
    runLoop decode (.message ("[DONE]".toList) :: rest) st acc jr = .ok ⟨acc, jr⟩ := by
  intro decode rest st acc jr
  simp [runLoop]

/-- Claim C9: with the `stream` flag unset, `stream_json` fails with the
configuration error no matter what the event source would deliver (nothing
is consumed); with the flag set that error is never produced. -/
theorem c9_stream_flag_validation :
    ∀ (decode : List Char → Except Unit (Option ChatDelta)) (events eventsB : List SseEvent),
    stream_json false decode events = .error .config
    ∧ stream_json true decode eventsB ≠ .error .config := by
  intro decode events eventsB
  refine ⟨rfl, ?_⟩
  simpa [stream_json] using runLoop_ne_config decode eventsB .Idle [] none

/-- Witness for C9 at a concrete decoder and event list. -/
theorem c9_witness :
    stream_json false decodeId [.opened] = .error .config
    ∧ stream_json true decodeId [.opened] ≠ .error .config :=
  c9_stream_flag_validation decodeId [.opened] [.opened]

/-- Claim C10: `knn_search` with `k = 0` and nonempty content panics
(modelled as `none`): the heap is never filled and `peek().unwrap()` runs on
an empty heap; with `k ≥ 1` no panic occurs and at most `k` items are
returned. -/
theorem c10_knn_bounds :
    ∀ (query : List Int) (content : List (List Int)) (k : Nat),
    (content ≠ [] → knn_search query content 0 = none)
    ∧ (1 ≤ k → ∃ r, knn_search query content k = some r ∧ r.length ≤ k) := by
  intro query content k
  constructor
  · intro h
    obtain ⟨item, rest, hv⟩ := List.exists_cons_of_ne_nil h
    subst hv
    have hnone : knnLoop query 0 (item :: rest) [] = none := by
      simp [knnLoop, popMin]
    simp [knn_search, hnone]
  · intro hk
    obtain ⟨r, hr, hrlen⟩ := knnLoop_ok query k hk content [] (by simp)
    refine ⟨sortDesc r, by simp [knn_search, hr], ?_⟩
    rw [sortDesc_length]
    exact hrlen

/-- Witness for C10 with a two-item content list. -/
theorem c10_witness :
    knn_search [1] [[2], [3]] 0 = none
    ∧ ∃ r, knn_search [1] [[2], [3]] 1 = some r ∧ r.length ≤ 1 :=
  ⟨(c10_knn_bounds [1] [[2], [3]] 0).1 (by decide),
    (c10_knn_bounds [1] [[2], [3]] 1).2 (by decide)⟩

end LlmPluginUtils
